import Mathlib

/-!
Verification of the covertrace `upeak` peak-extraction core
(`covertrace/utils/upeak/peak_utils.py` and
`covertrace/utils/upeak/data_processing.py`).

The Python functions are shallowly embedded as executable Lean
definitions: traces are `List ℚ` (numpy float rows), label arrays are
`List ℕ`, per-trace peak index lists are `List (List ℕ)`, fallible code
returns `Except String`.  Functions whose bodies live in the absent
`data_utils.py` module are modelled from the spec and marked as such in
their doc comments; everything else is translated directly from the
source.
-/

set_option autoImplicit false

namespace Covertrace

/-- Decidable equality for `Except`, used to evaluate the embedded
fallible functions on concrete inputs. -/
instance {ε α : Type} [DecidableEq ε] [DecidableEq α] : DecidableEq (Except ε α) := fun x y =>
  match x, y with
  | .ok a, .ok b =>
    if h : a = b then .isTrue (by rw [h]) else .isFalse (by simp [h])
  | .error a, .error b =>
    if h : a = b then .isTrue (by rw [h]) else .isFalse (by simp [h])
  | .ok _, .error _ => .isFalse (by simp)
  | .error _, .ok _ => .isFalse (by simp)

/-! ### Seed Extractor: `_constant_thres_seg` and its numpy helpers -/

/-- `np.where(result > thr)[0]` on a 1-D array: the (increasing) list of
indices whose value strictly exceeds `thr`. -/
def np_where_gt (result : List ℚ) (thr : ℚ) : List ℕ :=
  (List.range result.length).filter (fun i => thr < result.getD i 0)

/-- `np.ediff1d(xs, to_begin=1)`: pairwise forward differences of `xs`
prefixed with the value `1`.  Candidate index lists are increasing, so the
differences are naturals. -/
def ediff1d_tb1 (xs : List ℕ) : List ℕ :=
  1 :: (xs.zip xs.tail).map (fun ab => ab.2 - ab.1)

/-- `np.where(diffs > max_gap)[0]`: positions (in `diffs`) whose entry
exceeds `max_gap`. -/
def bounds_of (diffs : List ℕ) (max_gap : ℕ) : List ℕ :=
  (List.range diffs.length).filter (fun i => max_gap < diffs.getD i 0)

/-- `np.split(xs, bounds)` for a sorted list of split positions: the slices
`xs[0:b₀], xs[b₀:b₁], …, xs[bₖ:]`.  `prev` is the left edge of the slice
currently being produced. -/
def np_split {α : Type} (xs : List α) : List ℕ → ℕ → List (List α)
  | [], prev => [xs.drop prev]
  | b :: bs, prev => ((xs.drop prev).take (b - prev)) :: np_split xs bs b

/-- `_constant_thres_seg(result, min_prob, min_length, max_gap)`:
threshold the plateau-probability row at `min_prob`, split the selected
indices wherever the forward difference (with an initial sentinel diff of
`1`) exceeds `max_gap`, and keep the chunks of length at least
`min_length`. -/
def constant_thres_seg (result : List ℚ) (min_prob : ℚ) (min_length : ℕ)
    (max_gap : ℕ) : List (List ℕ) :=
  let candidates := np_where_gt result min_prob
  let diffs := ediff1d_tb1 candidates
  let bounds := bounds_of diffs max_gap
  (np_split candidates bounds 0).filter (fun p => min_length ≤ p.length)

/-! ### Label-array helpers -/

/-- The sorted positive values occurring in a 1-D label row — the positive
part of `np.unique(lab)`. -/
def unique_pos (lab : List ℕ) : List ℕ :=
  (List.range (lab.foldr max 0 + 1)).filter (fun l => l ≠ 0 && l ∈ lab)

/-- `_labels_to_peak_idxs` on one row: for every positive label value (in
increasing order), `np.where(lab == l)[0]`. -/
def labels_to_peak_idxs_1d (lab : List ℕ) : List (List ℕ) :=
  (unique_pos lab).map (fun l => (List.range lab.length).filter (fun i => lab.getD i 0 = l))

/-- `_labels_to_peak_idxs` on a 2-D label array. -/
def labels_to_peak_idxs (labs : List (List ℕ)) : List (List (List ℕ)) :=
  labs.map labels_to_peak_idxs_1d

/-- `_2d_idxs_to_labels(trace, idxs)`: a zero row per trace, where every
index of the `j`-th surviving peak is relabelled `j + 1`. -/
def idxs_2d_to_labels (traces : List (List ℚ)) (idxs : List (List (List ℕ))) :
    List (List ℕ) :=
  (List.range traces.length).map (fun i =>
    (List.range ((traces.getD i []).length)).map (fun x =>
      match (idxs.getD i []).findIdx? (fun pk => x ∈ pk) with
      | some j => j + 1
      | none => 0))

/-! ### Duplicate Resolver: `_remove_duplicate_peaks` and `_peak_remover` -/

/-- `np.where(traces[n] - traces[p] == 0)[0]`: the indices where the two
rows agree exactly.  numpy rows always have equal length; out-of-range
reads default to `0`. -/
def zero_overlaps (tn tp : List ℚ) : List ℕ :=
  (List.range tn.length).filter (fun j => tn.getD j 0 = tp.getD j 0)

/-- The `potential_matches` list for row `n`: every other row index whose
zero-difference overlap with row `n` has more than 4 points, in increasing
order (as produced by `np.unique`). -/
def potential_matches (traces : List (List ℚ)) (n : ℕ) : List ℕ :=
  (List.range traces.length).filter
    (fun i => 4 < (zero_overlaps (traces.getD n []) (traces.getD i [])).length && i ≠ n)

/-- `len(np.intersect1d(a, b))`: the number of distinct values common to
`a` and `b`. -/
def intersect1d_len (a b : List ℕ) : ℕ :=
  (a.dedup.filter (fun x => x ∈ b)).length

/-- The removal guard of `_remove_duplicate_peaks`:
`np.in1d(peak1, overlaps).all() and len(np.intersect1d(peak1, peak2)) > 0.8 * len(peak1)`.
The float comparison `k > 0.8 * L` (with `k`, `L` small integers) is the
exact comparison `5 * k > 4 * L`. -/
def dup_guard (overlaps : List ℕ) (peak1 peak2 : List ℕ) : Bool :=
  peak1.all (fun i => i ∈ overlaps) && intersect1d_len peak1 peak2 * 5 > peak1.length * 4

/-- `_peak_remover(peak_list, removed_peak)`: drop the first entry equal to
`removed_peak`; if none is equal, fail with `ValueError('Peak not found.')`. -/
def peak_remover (peak_list : List (List ℕ)) (removed_peak : List ℕ) :
    Except String (List (List ℕ)) :=
  match peak_list with
  | [] => .error "Peak not found."
  | y :: ys =>
    if y = removed_peak then .ok ys
    else
      match peak_remover ys removed_peak with
      | .ok r => .ok (y :: r)
      | .error e => .error e

/-- The `for peak2 in self._dedup_peak_idxs[p]` loop body for one fixed
`peak1` (at position `p_idx` of the snapshot of row `n`'s list): whenever
the guard fires, remove `peak1` from row `n`'s dedup peak list and
`self._plateau_idxs[n][p_idx]` from its dedup plateau list.  `st` threads
row `n`'s live `(dedup peaks, dedup plateaus)`. -/
def remove_pass_peak2 (plat_full_n : List (List ℕ)) (overlaps : List ℕ)
    (p_idx : ℕ) (peak1 : List ℕ) :
    List (List ℕ) → List (List ℕ) × List (List ℕ) →
    Except String (List (List ℕ) × List (List ℕ))
  | [], st => .ok st
  | peak2 :: rest, (dn, pln) =>
    if peak1.length = 0 ∨ peak2.length = 0 then
      remove_pass_peak2 plat_full_n overlaps p_idx peak1 rest (dn, pln)
    else if dup_guard overlaps peak1 peak2 then
      match peak_remover dn peak1 with
      | .error e => .error e
      | .ok dn' =>
        match plat_full_n.get? p_idx with
        | none => .error "IndexError: list index out of range"
        | some plat =>
          match peak_remover pln plat with
          | .error e => .error e
          | .ok pln' => remove_pass_peak2 plat_full_n overlaps p_idx peak1 rest (dn', pln')
    else
      remove_pass_peak2 plat_full_n overlaps p_idx peak1 rest (dn, pln)

/-- The `for p_idx, peak1 in enumerate(list(self._dedup_peak_idxs[n]))`
loop: iterate the snapshot `copy` (taken before any removal of this
potential-match round), keeping the live state `st`. -/
def remove_pass_peak1 (plat_full_n : List (List ℕ)) (overlaps : List ℕ)
    (peaksP : List (List ℕ)) :
    ℕ → List (List ℕ) → List (List ℕ) × List (List ℕ) →
    Except String (List (List ℕ) × List (List ℕ))
  | _, [], st => .ok st
  | p_idx, peak1 :: copyRest, st =>
    match remove_pass_peak2 plat_full_n overlaps p_idx peak1 peaksP st with
    | .error e => .error e
    | .ok st' => remove_pass_peak1 plat_full_n overlaps peaksP (p_idx + 1) copyRest st'

/-- Processing of one potential match `p` for row `n`: recompute the
zero-overlap set, snapshot row `n`'s dedup peak list, and run the nested
peak loops against row `p`'s current dedup peak list.  Only row `n`'s
entries of the two dedup structures change. -/
def process_match (traces : List (List ℚ)) (plat_full : List (List (List ℕ)))
    (n p : ℕ) (dp dpl : List (List (List ℕ))) :
    Except String (List (List (List ℕ)) × List (List (List ℕ))) :=
  let overlaps := zero_overlaps (traces.getD n []) (traces.getD p [])
  let copy := dp.getD n []
  let peaksP := dp.getD p []
  match remove_pass_peak1 (plat_full.getD n []) overlaps peaksP 0 copy
      (dp.getD n [], dpl.getD n []) with
  | .error e => .error e
  | .ok (dn', pln') => .ok (dp.set n dn', dpl.set n pln')

/-- The `for p in potential_matches` loop for row `n`. -/
def process_row (traces : List (List ℚ)) (plat_full : List (List (List ℕ)))
    (n : ℕ) :
    List ℕ → List (List (List ℕ)) × List (List (List ℕ)) →
    Except String (List (List (List ℕ)) × List (List (List ℕ)))
  | [], st => .ok st
  | p :: ps, (dp, dpl) =>
    match process_match traces plat_full n p dp dpl with
    | .error e => .error e
    | .ok st' => process_row traces plat_full n ps st'

/-- The outer `for n in range(self.traces.shape[0])` loop of
`_remove_duplicate_peaks`. -/
def remove_rows (traces : List (List ℚ)) (plat_full : List (List (List ℕ))) :
    List ℕ → List (List (List ℕ)) × List (List (List ℕ)) →
    Except String (List (List (List ℕ)) × List (List (List ℕ)))
  | [], st => .ok st
  | n :: ns, st =>
    match process_row traces plat_full n (potential_matches traces n) st with
    | .error e => .error e
    | .ok st' => remove_rows traces plat_full ns st'

/-- `peak_site._remove_duplicate_peaks` with the default `thres=0.8`,
acting on the freshly initialised dedup index lists. -/
def remove_duplicate_peaks (traces : List (List ℚ))
    (peak_full plat_full : List (List (List ℕ))) :
    Except String (List (List (List ℕ)) × List (List (List ℕ))) :=
  remove_rows traces plat_full (List.range traces.length) (peak_full, plat_full)

/-! ### `peak_site` construction and metric caches -/

/-- The part of the `peak_site` object state the verified claims touch.
Lazily created metric attributes are `Option` fields (`none` = the Python
attribute does not exist yet). -/
structure PeakSite where
  traces : List (List ℚ)
  raw_traces : List (List ℚ)
  peak_labels : List (List ℕ)
  seed_labels : List (List ℕ)
  peak_idxs : List (List (List ℕ))
  plateau_idxs : List (List (List ℕ))
  dedup_peak_idxs : List (List (List ℕ))
  dedup_plateau_idxs : List (List (List ℕ))
  dedup_peak_labels : List (List ℕ)
  amplitude : Option (List (List (ℕ × ℚ))) := none
  asymmetry : Option (List (List ℚ)) := none
  peak_auc : Option (List (List ℚ)) := none
  tracts : Option (List (List (List ℕ))) := none
  deriving DecidableEq

/-- `peak_site.__init__(traces, peak_labels, seed_labels)`: store the
traces (with an unmodified copy in `raw_traces`), derive the full peak and
plateau index lists from the label arrays, initialise the dedup lists to
fresh copies and run the duplicate-removal pass over them, then rebuild
the dedup label array from the surviving peak indices.  Masks and
prediction storage play no part in any claim and are omitted. -/
def peak_site_init (traces : List (List ℚ))
    (peak_labels seed_labels : List (List ℕ)) : Except String PeakSite :=
  let pk := labels_to_peak_idxs peak_labels
  let pl := labels_to_peak_idxs seed_labels
  match remove_duplicate_peaks traces pk pl with
  | .error e => .error e
  | .ok (dpk, dpl) =>
    .ok { traces := traces
          raw_traces := traces
          peak_labels := peak_labels
          seed_labels := seed_labels
          peak_idxs := pk
          plateau_idxs := pl
          dedup_peak_idxs := dpk
          dedup_plateau_idxs := dpl
          dedup_peak_labels := idxs_2d_to_labels traces dpk }

/-! ### Metric kernels

The per-peak kernels live in `data_utils.py`, which is not part of the
sources; they are modelled from the spec.  Every claim below is decided by
the caching / universe-selection / dependency logic of `peak_utils.py`,
which is embedded from the source, not by these kernels. -/

/-- Modelled from the spec: `du._peak_amplitude` (absent `data_utils`
module) returns the `(frame, value)` pair of the highest point of the
peak, first occurrence winning ties as with `np.argmax`. -/
def peak_amplitude (trace : List ℚ) (p : List ℕ) : ℕ × ℚ :=
  p.foldl
    (fun acc i => if acc.2 < trace.getD i 0 then (i, trace.getD i 0) else acc)
    (p.headD 0, trace.getD (p.headD 0) 0)

/-- Modelled from the spec: `du._area_under_curve` (absent `data_utils`
module) is the trapezoidal area under the trace over the given index
span. -/
def area_under_curve (trace : List ℚ) (idxs : List ℕ) : ℚ :=
  ((idxs.zip idxs.tail).map
    (fun ab => (trace.getD ab.1 0 + trace.getD ab.2 0) / 2 * ((ab.2 : ℚ) - (ab.1 : ℚ)))).sum

/-- Modelled from the spec: `du._peak_asymmetry` (absent `data_utils`
module) expresses the position `x` of the peak's defining point as a
fraction of the peak's span. -/
def peak_asymmetry (trace : List ℚ) (p : List ℕ) (x : ℕ) : ℚ :=
  if p.length = 0 then 0 else ((x : ℚ) - (p.headD 0 : ℚ)) / (p.length : ℚ)

/-- Modelled from the spec: `du._peak_asymmetry_by_plateau` (absent
`data_utils` module), the plateau-centred variant; the source passes it
the amplitude entry of the peak. -/
def peak_asymmetry_by_plateau (trace : List ℚ) (p : List ℕ) (a : ℕ × ℚ) : ℚ :=
  peak_asymmetry trace p a.1

/-- Modelled from the spec: `du._detect_peak_tracts` (absent `data_utils`
module) groups the peaks of one trace into tracts, a new tract starting
whenever a peak begins more than `max_gap` frames after the previous peak
ends; each tract lists its peak numbers (1-based, in order). -/
def detect_peak_tracts (trace : List ℚ) (labels : List ℕ) (max_gap : ℕ) :
    List (List ℕ) :=
  let runs := labels_to_peak_idxs_1d labels
  let step := fun (acc : List (List ℕ) × ℕ × Option ℕ) (r : List ℕ) =>
    let lbl := acc.2.1
    match acc.2.2, acc.1 with
    | some lastEnd, g :: gs =>
      if r.headD 0 - lastEnd ≤ max_gap then
        ((g ++ [lbl]) :: gs, lbl + 1, some (r.getLastD 0))
      else
        ([lbl] :: g :: gs, lbl + 1, some (r.getLastD 0))
    | _, gs => ([lbl] :: gs, lbl + 1, some (r.getLastD 0))
  (runs.foldl step ([], 1, none)).1.reverse

/-! ### Cached metric accessors (`peak_site._get_*`) -/

/-- The metric body of `_get_amplitude`: per trace, the amplitude of every
peak of the selected index universe (`duplicates=True` reads the full
lists, `False` the deduplicated ones). -/
def compute_amplitude (s : PeakSite) (duplicates : Bool) : List (List (ℕ × ℚ)) :=
  (List.range s.traces.length).map (fun n =>
    (if duplicates then s.peak_idxs.getD n [] else s.dedup_peak_idxs.getD n []).map
      (peak_amplitude (s.traces.getD n [])))

/-- `peak_site._get_amplitude`: return the cached attribute when present,
otherwise compute and cache it. -/
def get_amplitude (s : PeakSite) (duplicates : Bool) :
    PeakSite × List (List (ℕ × ℚ)) :=
  match s.amplitude with
  | some a => (s, a)
  | none =>
    let v := compute_amplitude s duplicates
    ({s with amplitude := some v}, v)

/-- `peak_site._clear_attr('amplitude')` / `Peaks.del_attr`: afterwards
the attribute is absent (when it was already absent the source only
prints a message). -/
def clear_amplitude (s : PeakSite) : PeakSite :=
  {s with amplitude := none}

/-- The metric body of `_get_auc(area='peak')`.  Note the source's branch
order: `duplicates=True` reads the *deduplicated* lists and
`duplicates=False` the full ones — the opposite of every other metric. -/
def compute_peak_auc (s : PeakSite) (duplicates : Bool) : List (List ℚ) :=
  (List.range s.traces.length).map (fun n =>
    (if duplicates then s.dedup_peak_idxs.getD n [] else s.peak_idxs.getD n []).map
      (area_under_curve (s.traces.getD n [])))

/-- `peak_site._get_auc(area='peak')` with its cache. -/
def get_auc_peak (s : PeakSite) (duplicates : Bool) : PeakSite × List (List ℚ) :=
  match s.peak_auc with
  | some a => (s, a)
  | none =>
    let v := compute_peak_auc s duplicates
    ({s with peak_auc := some v}, v)

/-- The per-row loop of `_get_asymmetry`.  Each row first builds
`zip(peak list, self.amplitude[n])`, so a missing `amplitude` attribute
raises `AttributeError` as soon as one row exists; rows whose `method`
matches neither branch append nothing. -/
def asym_rows (traces : List (List ℚ)) (pk dpk : List (List (List ℕ)))
    (ampOpt : Option (List (List (ℕ × ℚ)))) (method : String)
    (duplicates : Bool) : List ℕ → Except String (List (List ℚ))
  | [] => .ok []
  | n :: ns =>
    match ampOpt with
    | none => .error "AttributeError: 'peak_site' object has no attribute 'amplitude'"
    | some amp => do
      let inputs := (if duplicates then pk.getD n [] else dpk.getD n []).zip (amp.getD n [])
      let rest ← asym_rows traces pk dpk ampOpt method duplicates ns
      if method = "plateau" then
        .ok ((inputs.map (fun pa => peak_asymmetry (traces.getD n []) pa.1 pa.2.1)) :: rest)
      else if method = "amplitude" then
        .ok ((inputs.map (fun pa => peak_asymmetry_by_plateau (traces.getD n []) pa.1 pa.2)) :: rest)
      else
        .ok rest

/-- `peak_site._get_asymmetry`: cached; computes `amplitude` beforehand
only when `method == 'amplitude'` finds it missing, yet every row reads
`self.amplitude`. -/
def get_asymmetry (s : PeakSite) (method : String) (duplicates : Bool) :
    Except String (PeakSite × List (List ℚ)) :=
  match s.asymmetry with
  | some a => .ok (s, a)
  | none =>
    let s1 := if s.amplitude.isNone && method = "amplitude"
      then (get_amplitude s duplicates).1 else s
    match asym_rows s1.traces s1.peak_idxs s1.dedup_peak_idxs s1.amplitude
        method duplicates (List.range s1.traces.length) with
    | .error e => .error e
    | .ok v => .ok ({s1 with asymmetry := some v}, v)

/-- `peak_site._get_tracts`: cached; `duplicates=True` groups on
`peak_labels`, `False` on the rebuilt deduplicated label array. -/
def get_tracts (s : PeakSite) (max_gap : ℕ) (duplicates : Bool) :
    PeakSite × List (List (List ℕ)) :=
  match s.tracts with
  | some t => (s, t)
  | none =>
    let v := (List.range s.traces.length).map (fun n =>
      if duplicates then
        detect_peak_tracts (s.traces.getD n []) (s.peak_labels.getD n []) max_gap
      else
        detect_peak_tracts (s.traces.getD n []) (s.dedup_peak_labels.getD n []) max_gap)
    ({s with tracts := some v}, v)

/-- `Peaks.tracts(max_gap, duplicates)`: the collection accessor.  The
source body is `self[key]._get_tracts(duplicates=duplicates)`, so the
caller's `max_gap` is dropped and `_get_tracts` always runs with its own
default `max_gap=12`. -/
def Peaks_tracts (sites : List PeakSite) (max_gap : ℕ) (duplicates : Bool) :
    List PeakSite × List (List (List (List ℕ))) :=
  let sites' := sites.map (fun s => (get_tracts s 12 duplicates).1)
  (sites', sites'.map (fun s => s.tracts.getD []))

/-! ### `normalize_traces` -/

/-- `peak_site._normalize_traces(method)`: with `'base'` every working
trace row is replaced by `normalize_by_baseline` of the corresponding raw
row; any other method raises before touching state.
`du.normalize_by_baseline` lives in the absent `data_utils` module, so the
embedding takes the baseline normalizer as a parameter. -/
def site_normalize_traces (normalize_by_baseline : List ℚ → List ℚ)
    (s : PeakSite) (method : String) : Except String PeakSite :=
  if method = "base" then
    .ok {s with traces := s.raw_traces.map normalize_by_baseline}
  else
    .error ("Unknown normalization method " ++ method)

/-- `Peaks.normalize_traces(method)`: apply `_normalize_traces` to every
site in insertion order; the first raise aborts the loop. -/
def Peaks_normalize_traces (normalize_by_baseline : List ℚ → List ℚ)
    (sites : List PeakSite) (method : String) : Except String (List PeakSite) :=
  sites.mapM (fun s => site_normalize_traces normalize_by_baseline s method)

/-! ### Missing-value interpolation (`data_processing.nan_helper_2d`)

A trace row with missing values is a `List (Option ℚ)` (`none` = NaN).
`nan_helper_2d` calls, per row,
`y[nans] = np.interp(z(nans), z(~nans), y[~nans])`: every NaN position is
replaced by the `np.interp` value over the non-NaN sample points.
`np.interp` clamps outside the sample range: positions before the first
(after the last) sample point receive the first (last) sample value.  A
row with no non-NaN sample raises in numpy; the model returns `0` there,
and the theorems assume a known sample exists. -/

/-- The non-NaN `(index, value)` sample points of a row, indices starting
at `i`. -/
def known_pts : ℕ → List (Option ℚ) → List (ℕ × ℚ)
  | _, [] => []
  | i, none :: rest => known_pts (i + 1) rest
  | i, some v :: rest => (i, v) :: known_pts (i + 1) rest

/-- `np.interp(x, xp, fp)` at one point, for the increasing sample list
`pts`: clamp to the first value left of all samples, interpolate linearly
on the first bracketing segment, clamp to the last value right of all
samples. -/
def np_interp_pt (x : ℕ) : List (ℕ × ℚ) → ℚ
  | [] => 0
  | [(_, f0)] => f0
  | (x0, f0) :: (x1, f1) :: rest =>
    if x ≤ x0 then f0
    else if x ≤ x1 then f0 + (f1 - f0) * ((x : ℚ) - (x0 : ℚ)) / ((x1 : ℚ) - (x0 : ℚ))
    else np_interp_pt x ((x1, f1) :: rest)

/-- One rebuilt entry: a non-NaN value stays, a NaN value takes the
interpolated value at its index. -/
def fill_entry (pts : List (ℕ × ℚ)) (i : ℕ) : Option ℚ → ℚ
  | some v => v
  | none => np_interp_pt i pts

/-- The row rebuild: non-NaN entries stay, NaN entries take the
interpolated value; `i` is the index of the head. -/
def fill_row (pts : List (ℕ × ℚ)) : ℕ → List (Option ℚ) → List ℚ
  | _, [] => []
  | i, o :: rest => fill_entry pts i o :: fill_row pts (i + 1) rest

/-- `nan_helper_2d` on one row. -/
def nan_helper_1d (y : List (Option ℚ)) : List ℚ :=
  fill_row (known_pts 0 y) 0 y

/-- `data_processing.nan_helper_2d`: row-wise NaN interpolation. -/
def nan_helper_2d (arr : List (List (Option ℚ))) : List (List ℚ) :=
  arr.map nan_helper_1d

/-- The last known sample point strictly before index `i`. -/
def prev_known (y : List (Option ℚ)) (i : ℕ) : Option (ℕ × ℚ) :=
  ((known_pts 0 y).filter (fun p => p.1 < i)).getLast?

/-- The first known sample point strictly after index `i`. -/
def next_known (y : List (Option ℚ)) (i : ℕ) : Option (ℕ × ℚ) :=
  ((known_pts 0 y).filter (fun p => i < p.1)).head?

/-- The claim's description of `nan_helper_2d` on one row, stated as its
own definition for comparison: only interior NaN gaps are filled, by
linear interpolation between the surrounding non-NaN samples; leading and
trailing NaN samples stay unfilled; non-NaN samples are unchanged. -/
def nan_fill_claim (y : List (Option ℚ)) : List (Option ℚ) :=
  (List.range y.length).map (fun i =>
    match y.getD i none with
    | some v => some v
    | none =>
      match prev_known y i, next_known y i with
      | some (l, vl), some (r, vr) =>
        some (vl + (vr - vl) * ((i : ℚ) - (l : ℚ)) / ((r : ℚ) - (l : ℚ)))
      | _, _ => none)

/-! ### The claimed removal condition of the Duplicate Resolver -/

/-- The removal condition exactly as the claim states it, read over the
input data: some other row `m` has more than 4 zero-difference indices
against row `n`, every index of the peak lies in that zero-difference
overlap set, and the peak intersects some peak of row `m` in more than
`0.8` of its own length (comparisons with an empty peak are no-matches,
so a removed peak and its partner are nonempty). -/
def removal_cond (traces : List (List ℚ)) (fullPeaks : List (List (List ℕ)))
    (n : ℕ) (x : List ℕ) : Prop :=
  x ≠ [] ∧
  ∃ m ∈ List.range traces.length, m ≠ n ∧
    4 < (zero_overlaps (traces.getD n []) (traces.getD m [])).length ∧
    (∀ i ∈ x, i ∈ zero_overlaps (traces.getD n []) (traces.getD m [])) ∧
    ∃ y ∈ fullPeaks.getD m [], y ≠ [] ∧ x.length * 4 < intersect1d_len x y * 5

instance removal_cond_dec (traces : List (List ℚ))
    (fullPeaks : List (List (List ℕ))) (n : ℕ) (x : List ℕ) :
    Decidable (removal_cond traces fullPeaks n x) := by
  unfold removal_cond; infer_instance

/-! ### Concrete sites used to evaluate the embedding -/

/-- Two identical trace rows, each carrying one peak on frames 1–3 with
plateau frame 2. -/
def exT : List (List ℚ) := [[0, 1, 2, 1, 0, 0], [0, 1, 2, 1, 0, 0]]

def exP : List (List ℕ) := [[0, 1, 1, 1, 0, 0], [0, 1, 1, 1, 0, 0]]

def exS : List (List ℕ) := [[0, 0, 1, 0, 0, 0], [0, 0, 1, 0, 0, 0]]

/-- The site `peak_site(exT, exP, exS)` constructs: the duplicate pass
removes row 0's peak (matched against row 1) but keeps row 1's peak,
because row 0's deduplicated list is already empty when row 1 is
processed. -/
def exSite : PeakSite :=
  { traces := exT
    raw_traces := exT
    peak_labels := exP
    seed_labels := exS
    peak_idxs := [[[1, 2, 3]], [[1, 2, 3]]]
    plateau_idxs := [[[2]], [[2]]]
    dedup_peak_idxs := [[], [[1, 2, 3]]]
    dedup_plateau_idxs := [[], [[2]]]
    dedup_peak_labels := [[0, 0, 0, 0, 0, 0], [0, 1, 1, 1, 0, 0]] }

/-- A one-row site with a single one-frame peak; no duplicate exists, so
the dedup lists equal the full ones. -/
def oneSite : PeakSite :=
  { traces := [[0, 1, 0]]
    raw_traces := [[0, 1, 0]]
    peak_labels := [[0, 1, 0]]
    seed_labels := [[0, 1, 0]]
    peak_idxs := [[[1]]]
    plateau_idxs := [[[1]]]
    dedup_peak_idxs := [[[1]]]
    dedup_plateau_idxs := [[[1]]]
    dedup_peak_labels := [[0, 1, 0]] }

/-- A one-row site with two peaks (frames 1 and 4), three frames apart. -/
def twoSite : PeakSite :=
  { traces := [[0, 1, 0, 0, 1, 0]]
    raw_traces := [[0, 1, 0, 0, 1, 0]]
    peak_labels := [[0, 1, 0, 0, 2, 0]]
    seed_labels := [[0, 1, 0, 0, 2, 0]]
    peak_idxs := [[[1], [4]]]
    plateau_idxs := [[[1], [4]]]
    dedup_peak_idxs := [[[1], [4]]]
    dedup_plateau_idxs := [[[1], [4]]]
    dedup_peak_labels := [[0, 1, 0, 0, 2, 0]] }

/-! ## Helper lemmas: `_peak_remover` -/

theorem peak_remover_ok_spec (l : List (List ℕ)) (x : List ℕ)
    (l' : List (List ℕ)) (h : peak_remover l x = .ok l') :
    ∃ pre suf, l = pre ++ x :: suf ∧ (∀ z ∈ pre, z ≠ x) ∧ l' = pre ++ suf := by
  induction l generalizing l' with
  | nil => simp [peak_remover] at h
  | cons y ys ih =>
    by_cases hy : y = x
    · subst hy
      simp [peak_remover] at h
      exact ⟨[], ys, by simp, by simp, h.symm⟩
    · rw [peak_remover, if_neg hy] at h
      cases hr : peak_remover ys x with
      | error e => rw [hr] at h; exact absurd h (by simp)
      | ok r =>
        rw [hr] at h
        simp at h
        obtain ⟨pre, suf, hys, hpre, hr'⟩ := ih r hr
        exact ⟨y :: pre, suf, by simp [hys], by
          intro z hz
          rcases List.mem_cons.mp hz with h1 | h1
          · exact h1 ▸ hy
          · exact hpre z h1, by simp [← h, hr']⟩

theorem peak_remover_ok_of_mem (l : List (List ℕ)) (x : List ℕ) (h : x ∈ l) :
    ∃ pre suf, l = pre ++ x :: suf ∧ (∀ z ∈ pre, z ≠ x) ∧
      peak_remover l x = .ok (pre ++ suf) := by
  induction l with
  | nil => cases h
  | cons y ys ih =>
    by_cases hy : y = x
    · subst hy
      exact ⟨[], ys, rfl, by simp, by simp [peak_remover]⟩
    · have hx : x ∈ ys := by
        rcases List.mem_cons.mp h with h1 | h1
        · exact absurd h1.symm hy
        · exact h1
      obtain ⟨pre, suf, hys, hpre, hrun⟩ := ih hx
      refine ⟨y :: pre, suf, by simp [hys], ?_, ?_⟩
      · intro z hz
        rcases List.mem_cons.mp hz with h1 | h1
        · exact h1 ▸ hy
        · exact hpre z h1
      · rw [peak_remover, if_neg hy, hrun]
        rfl

theorem peak_remover_error_of_not_mem (l : List (List ℕ)) (x : List ℕ)
    (h : x ∉ l) : peak_remover l x = .error "Peak not found." := by
  induction l with
  | nil => rfl
  | cons y ys ih =>
    have hy : y ≠ x := fun hh => h (hh ▸ List.mem_cons_self y ys)
    have hx : x ∉ ys := fun hh => h (List.mem_cons_of_mem y hh)
    rw [peak_remover, if_neg hy, ih hx]

theorem peak_remover_sublist (l : List (List ℕ)) (x : List ℕ)
    (l' : List (List ℕ)) (h : peak_remover l x = .ok l') : l'.Sublist l := by
  obtain ⟨pre, suf, hl, _, hl'⟩ := peak_remover_ok_spec l x l' h
  rw [hl, hl']
  exact (List.sublist_cons_self x suf).append_left pre

theorem peak_remover_mem_diff (l : List (List ℕ)) (x : List ℕ)
    (l' : List (List ℕ)) (h : peak_remover l x = .ok l') :
    ∀ z ∈ l, z ∉ l' → z = x := by
  obtain ⟨pre, suf, hl, _, hl'⟩ := peak_remover_ok_spec l x l' h
  subst hl hl'
  intro z hz hz'
  simp only [List.mem_append, List.mem_cons] at hz hz'
  push_neg at hz'
  rcases hz with h1 | h1 | h1
  · exact absurd h1 hz'.1
  · exact h1
  · exact absurd h1 hz'.2

/-! ## Claim C2 -/

/-- Claim C2: the spec asserts that `_constant_thres_seg` on the plateau
probabilities `[0,0,0.9,0.9,0.9,0,0]` with `min_prob=0.8, min_length=2,
max_gap=0` yields exactly one seed `[2,3,4]`.  The code instead returns no
seed at all: it splits wherever consecutive selected indices differ by
more than `max_gap`, and adjacent indices differ by `1 > 0`, so every run
shatters into singletons shorter than `min_length` (code bug against the
docstring "max_gap is how many points can be missing"); with
`max_gap = 1` the same input does produce `[[2,3,4]]`. -/
theorem constant_thres_seg_boundary :
    constant_thres_seg [0, 0, 0.9, 0.9, 0.9, 0, 0] 0.8 2 0 = [] ∧
    constant_thres_seg [0, 0, 0.9, 0.9, 0.9, 0, 0] 0.8 2 1 = [[2, 3, 4]] := by
  constructor <;> with_unfolding_all decide

/-! ## Claim C10 -/

/-- Claim C10: `_peak_remover` removes exactly the first array-equal entry
when the peak is present in the target list, and raises
`ValueError('Peak not found.')` when it is absent. -/
theorem peak_remover_contract (l : List (List ℕ)) (x : List ℕ) :
    (x ∈ l → ∃ pre suf, l = pre ++ x :: suf ∧ (∀ z ∈ pre, z ≠ x) ∧
      peak_remover l x = .ok (pre ++ suf)) ∧
    (x ∉ l → peak_remover l x = .error "Peak not found.") :=
  ⟨peak_remover_ok_of_mem l x, peak_remover_error_of_not_mem l x⟩

/-- Witness for C10 at concrete inputs: `[1]` is found (and the first of
the two equal entries is removed), `[2]` is not found. -/
theorem peak_remover_contract_witness :
    (([1] : List ℕ) ∈ [[0], [1], [1]] ∧
      ∃ pre suf, ([[0], [1], [1]] : List (List ℕ)) = pre ++ [1] :: suf ∧
        (∀ z ∈ pre, z ≠ [1]) ∧ peak_remover [[0], [1], [1]] [1] = .ok (pre ++ suf)) ∧
    (([2] : List ℕ) ∉ [[0], [1], [1]] ∧
      peak_remover [[0], [1], [1]] [2] = .error "Peak not found.") :=
  ⟨⟨by decide, (peak_remover_contract [[0], [1], [1]] [1]).1 (by decide)⟩,
   ⟨by decide, (peak_remover_contract [[0], [1], [1]] [2]).2 (by decide)⟩⟩

/-! ## Claim C9 -/

/-- Claim C9: `_normalize_traces` with any method other than `'base'`
raises `ValueError('Unknown normalization method <method>')` and leaves
the site untouched; with `'base'` it replaces the working traces by the
baseline-normalized copies of the raw traces while `raw_traces` is
preserved.  The baseline normalizer itself lives in the absent
`data_utils` module, so the statement holds for an arbitrary one. -/
theorem normalize_traces_contract (f : List ℚ → List ℚ) (s : PeakSite)
    (method : String) :
    (method ≠ "base" →
      site_normalize_traces f s method
        = .error ("Unknown normalization method " ++ method)) ∧
    site_normalize_traces f s "base" = .ok {s with traces := s.raw_traces.map f} ∧
    (∀ s', site_normalize_traces f s method = .ok s' →
      s'.raw_traces = s.raw_traces) := by
  refine ⟨fun h => by simp [site_normalize_traces, h], by simp [site_normalize_traces], ?_⟩
  intro s' h
  by_cases hm : method = "base"
  · subst hm
    simp [site_normalize_traces] at h
    subst h
    rfl
  · simp [site_normalize_traces, hm] at h

/-- Witness for C9: the unknown method `'flatten'` errors on a concrete
site, and `'base'` rewrites its traces from the raw ones. -/
theorem normalize_traces_contract_witness :
    (("flatten" : String) ≠ "base" ∧
      site_normalize_traces id oneSite "flatten"
        = .error ("Unknown normalization method " ++ "flatten")) ∧
    (∀ s', site_normalize_traces id oneSite "flatten" = .ok s' →
      s'.raw_traces = oneSite.raw_traces) :=
  ⟨⟨by decide, (normalize_traces_contract id oneSite "flatten").1 (by decide)⟩,
    (normalize_traces_contract id oneSite "flatten").2.2⟩

/-! ## Claim C3 -/

/-- Claim C3: `_get_amplitude` computes once and caches; a second call —
even with a different `duplicates` flag — returns the identical cached
value and leaves the site unchanged, and only after `_clear_attr`
(`del_attr`) does a call compute afresh with its own parameters. -/
theorem amplitude_cache_idempotent (s : PeakSite) (d1 d2 : Bool) :
    (get_amplitude (get_amplitude s d1).1 d2).2 = (get_amplitude s d1).2 ∧
    (get_amplitude (get_amplitude s d1).1 d2).1 = (get_amplitude s d1).1 ∧
    (get_amplitude (clear_amplitude (get_amplitude s d1).1) d2).2
      = compute_amplitude (clear_amplitude (get_amplitude s d1).1) d2 := by
  cases h : s.amplitude <;>
    simp [get_amplitude, clear_amplitude, h]

/-! ## Claim C6 -/

/-- Claim C6: the spec asserts amplitude and peak AUC computed with the
same `duplicates` flag enumerate the same peak-index universe.  In the
source `_get_auc`'s branches are swapped: on a fresh site whose full and
deduplicated lists differ, `duplicates=True` amplitude reads the full
lists (row 0 has 1 peak) while `duplicates=True` AUC reads the
deduplicated lists (row 0 has 0 peaks). -/
theorem auc_amplitude_universe_mismatch :
    (get_amplitude exSite true).2 = [[(2, 2)], [(2, 2)]] ∧
    (get_auc_peak exSite true).2 = [[], [3]] ∧
    exSite.peak_idxs.getD 0 [] = [[1, 2, 3]] ∧
    exSite.dedup_peak_idxs.getD 0 [] = [] := by
  refine ⟨?_, ?_, ?_, ?_⟩ <;> with_unfolding_all decide

/-! ## Claim C7 -/

/-- Claim C7: the spec asserts every metric accessor computes the
prerequisites it reads, so any accessor can be called first.  On a fresh
one-row site, `_get_asymmetry` with its default `method='plateau'` reads
`self.amplitude` without computing it (the guard only computes amplitude
when `method == 'amplitude'`) and raises `AttributeError`. -/
theorem asymmetry_missing_amplitude_error :
    oneSite.amplitude = none ∧
    get_asymmetry oneSite "plateau" true
      = .error "AttributeError: 'peak_site' object has no attribute 'amplitude'" := by
  constructor <;> with_unfolding_all decide

/-! ## Claim C8 -/

/-- Claim C8: the spec asserts `Peaks.tracts(max_gap=g)` groups peaks with
the caller-supplied gap `g`.  The source never forwards `g` to
`_get_tracts`, which therefore always runs with its default `max_gap=12`:
on a site whose two peaks are 3 frames apart, the accessor called with
`max_gap=0` still groups them into one tract (and agrees with
`max_gap=12`), while grouping with gap `0` keeps them separate; indeed the
accessor's output is independent of `g` altogether. -/
theorem tracts_max_gap_ignored :
    (Peaks_tracts [twoSite] 0 true).2 = [[[[1, 2]]]] ∧
    detect_peak_tracts (twoSite.traces.getD 0 [])
      (twoSite.peak_labels.getD 0 []) 0 = [[1], [2]] ∧
    ∀ (sites : List PeakSite) (g g' : ℕ) (d : Bool),
      Peaks_tracts sites g d = Peaks_tracts sites g' d := by
  refine ⟨?_, ?_, fun _ _ _ _ => rfl⟩ <;> with_unfolding_all decide

/-! ## Helper lemmas: NaN interpolation -/

theorem known_pts_lb (y : List (Option ℚ)) :
    ∀ i, ∀ p ∈ known_pts i y, i ≤ p.1 := by
  induction y with
  | nil => intro i p hp; simp [known_pts] at hp
  | cons o rest ih =>
    intro i p hp
    cases o with
    | none =>
      have := ih (i + 1) p (by simpa [known_pts] using hp)
      omega
    | some v =>
      rw [known_pts] at hp
      rcases List.mem_cons.mp hp with h1 | h1
      · simp [h1]
      · have := ih (i + 1) p h1
        omega

theorem known_pts_pairwise (y : List (Option ℚ)) :
    ∀ i, (known_pts i y).Pairwise (fun a b => a.1 < b.1) := by
  induction y with
  | nil => intro i; simp [known_pts]
  | cons o rest ih =>
    intro i
    cases o with
    | none => simpa [known_pts] using ih (i + 1)
    | some v =>
      rw [known_pts]
      refine List.Pairwise.cons ?_ (ih (i + 1))
      intro p hp
      have := known_pts_lb rest (i + 1) p hp
      omega

theorem known_pts_mem_get (y : List (Option ℚ)) :
    ∀ i, ∀ p ∈ known_pts i y, ∃ j, p.1 = i + j ∧ y.get? j = some (some p.2) := by
  induction y with
  | nil => intro i p hp; simp [known_pts] at hp
  | cons o rest ih =>
    intro i p hp
    cases o with
    | none =>
      obtain ⟨j, hj, hget⟩ := ih (i + 1) p (by simpa [known_pts] using hp)
      exact ⟨j + 1, by omega, by simpa using hget⟩
    | some v =>
      rw [known_pts] at hp
      rcases List.mem_cons.mp hp with h1 | h1
      · exact ⟨0, by simp [h1], by simp [h1]⟩
      · obtain ⟨j, hj, hget⟩ := ih (i + 1) p h1
        exact ⟨j + 1, by omega, by simpa using hget⟩

theorem known_pts_get_mem (y : List (Option ℚ)) :
    ∀ i j v, y.get? j = some (some v) → (i + j, v) ∈ known_pts i y := by
  induction y with
  | nil => intro i j v h; simp at h
  | cons o rest ih =>
    intro i j v h
    cases j with
    | zero =>
      simp only [List.get?_cons_zero, Option.some.injEq] at h
      subst h
      simp [known_pts]
    | succ j' =>
      rw [List.get?_cons_succ] at h
      have := ih (i + 1) j' v h
      cases o with
      | none => simpa [known_pts, Nat.add_right_comm i 1 j'] using this
      | some w =>
        rw [known_pts]
        exact List.mem_cons_of_mem _ (by simpa [Nat.add_right_comm i 1 j'] using this)

theorem fill_row_get (pts : List (ℕ × ℚ)) (y : List (Option ℚ)) :
    ∀ j k, (fill_row pts j y).get? k = (y.get? k).map (fill_entry pts (j + k)) := by
  induction y with
  | nil => intro j k; simp [fill_row]
  | cons o rest ih =>
    intro j k
    cases k with
    | zero => simp [fill_row]
    | succ k' =>
      simp only [fill_row, List.get?_cons_succ]
      rw [ih (j + 1) k', show j + 1 + k' = j + (k' + 1) from by omega]

theorem nan_helper_1d_get (y : List (Option ℚ)) (k : ℕ) :
    (nan_helper_1d y).get? k = (y.get? k).map (fill_entry (known_pts 0 y) k) := by
  simpa using fill_row_get (known_pts 0 y) y 0 k

theorem np_interp_before (x x0 : ℕ) (f0 : ℚ) (rest : List (ℕ × ℚ))
    (h : x ≤ x0) : np_interp_pt x ((x0, f0) :: rest) = f0 := by
  cases rest with
  | nil => rfl
  | cons p rest' =>
    obtain ⟨x1, f1⟩ := p
    rw [np_interp_pt, if_pos h]

theorem np_interp_after (x : ℕ) :
    ∀ (pts : List (ℕ × ℚ)) (h : pts ≠ []),
      (∀ p ∈ pts, p.1 < x) → np_interp_pt x pts = (pts.getLast h).2 := by
  intro pts
  induction pts with
  | nil => intro h; exact absurd rfl h
  | cons p0 tl ih =>
    intro h hall
    obtain ⟨x0, f0⟩ := p0
    cases tl with
    | nil => rfl
    | cons p1 tl' =>
      obtain ⟨x1, f1⟩ := p1
      have h0 : x0 < x := hall (x0, f0) (by simp)
      have h1 : x1 < x := hall (x1, f1) (by simp)
      rw [np_interp_pt, if_neg (by omega), if_neg (by omega)]
      rw [ih (by simp) (fun p hp => hall p (List.mem_cons_of_mem _ hp))]
      simp [List.getLast_cons]

theorem np_interp_segment (x l r : ℕ) (vl vr : ℚ) :
    ∀ (pre suf : List (ℕ × ℚ)),
      (pre ++ (l, vl) :: (r, vr) :: suf).Pairwise (fun a b => a.1 < b.1) →
      l < x → x ≤ r →
      np_interp_pt x (pre ++ (l, vl) :: (r, vr) :: suf)
        = vl + (vr - vl) * ((x : ℚ) - (l : ℚ)) / ((r : ℚ) - (l : ℚ)) := by
  intro pre
  induction pre with
  | nil =>
    intro suf hpw hlx hxr
    simp only [List.nil_append]
    rw [np_interp_pt, if_neg (by omega), if_pos hxr]
  | cons p0 pre' ih =>
    intro suf hpw hlx hxr
    obtain ⟨x0, f0⟩ := p0
    have h0l : x0 < l := by
      have := (List.pairwise_cons.mp hpw).1 (l, vl) (by simp)
      exact this
    have hpw' := (List.pairwise_cons.mp hpw).2
    cases pre' with
    | nil =>
      simp only [List.cons_append, List.nil_append] at hpw' ⊢
      rw [np_interp_pt, if_neg (by omega), if_neg (by omega)]
      exact ih suf hpw' hlx hxr
    | cons p1 pre'' =>
      obtain ⟨x1, f1⟩ := p1
      have h1l : x1 < l := by
        have := (List.pairwise_cons.mp hpw').1 (l, vl) (by simp)
        exact this
      simp only [List.cons_append] at hpw' ⊢
      rw [np_interp_pt, if_neg (by omega), if_neg (by omega)]
      exact ih suf hpw' hlx hxr

theorem filter_split_sorted (i : ℕ) :
    ∀ (pts : List (ℕ × ℚ)),
      pts.Pairwise (fun a b => a.1 < b.1) →
      (∀ p ∈ pts, p.1 ≠ i) →
      pts = pts.filter (fun p => p.1 < i) ++ pts.filter (fun p => i < p.1) := by
  intro pts
  induction pts with
  | nil => intro _ _; rfl
  | cons p0 rest ih =>
    intro hpw hne
    have hpw' := (List.pairwise_cons.mp hpw).2
    have hhd := (List.pairwise_cons.mp hpw).1
    have hne0 : p0.1 ≠ i := hne p0 (by simp)
    have hne' : ∀ p ∈ rest, p.1 ≠ i := fun p hp => hne p (List.mem_cons_of_mem _ hp)
    by_cases hlt : p0.1 < i
    · rw [List.filter_cons_of_pos (by simpa using hlt),
        List.filter_cons_of_neg (by simp; omega), List.cons_append]
      exact congrArg (p0 :: ·) (ih hpw' hne')
    · have hgt : i < p0.1 := by omega
      rw [List.filter_cons_of_neg (by simpa using hlt),
        List.filter_cons_of_pos (by simpa using hgt)]
      have h1 : rest.filter (fun p => p.1 < i) = [] := by
        rw [List.filter_eq_nil_iff]
        intro p hp
        have := hhd p hp
        simp
        omega
      have h2 : rest.filter (fun p => i < p.1) = rest := by
        rw [List.filter_eq_self]
        intro p hp
        have := hhd p hp
        simp
        omega
      rw [h1, h2, List.nil_append]

theorem getLast?_eq_some_ex {α : Type} (l : List α) (a : α)
    (h : l.getLast? = some a) : ∃ l', l = l' ++ [a] := by
  induction l with
  | nil => simp at h
  | cons x xs ih =>
    cases xs with
    | nil =>
      simp [List.getLast?] at h
      exact ⟨[], by simp [h]⟩
    | cons y ys =>
      rw [List.getLast?_cons_cons] at h
      obtain ⟨l', hl'⟩ := ih h
      exact ⟨x :: l', by simp [hl']⟩

theorem no_known_at (y : List (Option ℚ)) (i : ℕ) (h : y.get? i = some none) :
    ∀ p ∈ known_pts 0 y, p.1 ≠ i := by
  intro p hp hpi
  obtain ⟨j, hj, hget⟩ := known_pts_mem_get y 0 p hp
  have : j = i := by omega
  rw [this] at hget
  rw [h] at hget
  simp at hget

/-! ## Claim C5 -/

/-- Counterexample for C5 as stated: the claim says leading and trailing
NaN samples are left unfilled (excluded from the interpolation domain).
On `[NaN, 1, NaN, 3, NaN]` the code fills every NaN — `np.interp` clamps,
so the leading NaN becomes `1` and the trailing NaN becomes `3` — and so
differs from the claim's description `nan_fill_claim` at both edges. -/
theorem nan_helper_edge_filled :
    nan_helper_2d [[none, some 1, none, some 3, none]] = [[1, 1, 2, 3, 3]] ∧
    nan_fill_claim [none, some 1, none, some 3, none]
      = [none, some 1, some 2, some 3, none] ∧
    (nan_helper_1d [none, some 1, none, some 3, none]).map some
      ≠ nan_fill_claim [none, some 1, none, some 3, none] := by
  refine ⟨?_, ?_, ?_⟩ <;> with_unfolding_all decide

/-- Claim C5, amended: `nan_helper_2d` leaves every non-NaN sample
unchanged and fills interior NaN gaps by linear interpolation between the
surrounding non-NaN samples, but it does not leave leading/trailing NaN
samples unfilled — they receive the first/last non-NaN value (`np.interp`
clamps outside the sample range). -/
theorem nan_helper_fill (y : List (Option ℚ)) (i : ℕ) :
    (∀ v : ℚ, y.get? i = some (some v) → (nan_helper_1d y).get? i = some v) ∧
    (y.get? i = some none → ∀ r : ℕ, ∀ vr : ℚ, prev_known y i = none →
      next_known y i = some (r, vr) → (nan_helper_1d y).get? i = some vr) ∧
    (y.get? i = some none → ∀ l : ℕ, ∀ vl : ℚ, prev_known y i = some (l, vl) →
      next_known y i = none → (nan_helper_1d y).get? i = some vl) ∧
    (y.get? i = some none → ∀ l r : ℕ, ∀ vl vr : ℚ,
      prev_known y i = some (l, vl) → next_known y i = some (r, vr) →
      (nan_helper_1d y).get? i
        = some (vl + (vr - vl) * ((i : ℚ) - (l : ℚ)) / ((r : ℚ) - (l : ℚ)))) := by
  refine ⟨?_, ?_, ?_, ?_⟩
  · intro v h
    rw [nan_helper_1d_get, h]
    rfl
  · intro h r vr hprev hnext
    have hsplit := filter_split_sorted i (known_pts 0 y)
      (known_pts_pairwise y 0) (no_known_at y i h)
    rw [prev_known] at hprev
    rw [next_known] at hnext
    set A := (known_pts 0 y).filter (fun p => p.1 < i) with hA
    set B := (known_pts 0 y).filter (fun p => i < p.1) with hB
    have hAnil : A = [] := by
      cases hA' : A with
      | nil => rfl
      | cons a as => rw [hA'] at hprev; rw [List.getLast?_eq_getLast _ (by simp)] at hprev; simp at hprev
    cases hB' : B with
    | nil => rw [hB'] at hnext; simp at hnext
    | cons b bs =>
      rw [hB'] at hnext
      simp at hnext
      have hmem : (r, vr) ∈ B := by rw [hB', hnext]; simp
      have hir : i < r := by
        have := (List.mem_filter.mp (hB ▸ hmem)).2
        simpa using this
      rw [nan_helper_1d_get, h]
      have hpts : known_pts 0 y = (r, vr) :: bs := by
        rw [hsplit, hAnil, hB', hnext]; rfl
      simp only [Option.map_some']
      rw [fill_entry, hpts, np_interp_before i r vr bs (by omega)]
  · intro h l vl hprev hnext
    have hsplit := filter_split_sorted i (known_pts 0 y)
      (known_pts_pairwise y 0) (no_known_at y i h)
    rw [prev_known] at hprev
    rw [next_known] at hnext
    set A := (known_pts 0 y).filter (fun p => p.1 < i) with hA
    set B := (known_pts 0 y).filter (fun p => i < p.1) with hB
    have hBnil : B = [] := by
      cases hB' : B with
      | nil => rfl
      | cons b bs => rw [hB'] at hnext; simp at hnext
    have hpts : known_pts 0 y = A := by rw [hsplit, hBnil, List.append_nil]
    have hAne : A ≠ [] := by
      intro hh
      rw [hh] at hprev
      simp at hprev
    have hlast : A.getLast hAne = (l, vl) := by
      have := List.getLast?_eq_getLast A hAne
      rw [this] at hprev
      exact Option.some.inj hprev
    have hall : ∀ p ∈ A, p.1 < i := by
      intro p hp
      have := (List.mem_filter.mp (hA ▸ hp)).2
      simpa using this
    rw [nan_helper_1d_get, h]
    simp only [Option.map_some']
    rw [fill_entry, hpts, np_interp_after i A hAne hall, hlast]
  · intro h l r vl vr hprev hnext
    have hsplit := filter_split_sorted i (known_pts 0 y)
      (known_pts_pairwise y 0) (no_known_at y i h)
    rw [prev_known] at hprev
    rw [next_known] at hnext
    set A := (known_pts 0 y).filter (fun p => p.1 < i) with hA
    set B := (known_pts 0 y).filter (fun p => i < p.1) with hB
    obtain ⟨A', hA'⟩ := getLast?_eq_some_ex A (l, vl) hprev
    cases hB' : B with
    | nil => rw [hB'] at hnext; simp at hnext
    | cons b bs =>
      rw [hB'] at hnext
      simp at hnext
      have hmemr : (r, vr) ∈ B := by rw [hB', hnext]; simp
      have hir : i < r := by
        have := (List.mem_filter.mp (hB ▸ hmemr)).2
        simpa using this
      have hmeml : (l, vl) ∈ A := by rw [hA']; simp
      have hli : l < i := by
        have := (List.mem_filter.mp (hA ▸ hmeml)).2
        simpa using this
      have hpts : known_pts 0 y = A' ++ (l, vl) :: (r, vr) :: bs := by
        rw [hsplit, hA', hB', hnext, List.append_assoc]
        rfl
      have hpw : (A' ++ (l, vl) :: (r, vr) :: bs).Pairwise
          (fun a b => a.1 < b.1) := hpts ▸ known_pts_pairwise y 0
      rw [nan_helper_1d_get, h]
      simp only [Option.map_some']
      rw [fill_entry, hpts, np_interp_segment i l r vl vr A' bs hpw hli (by omega)]

/-- Witness for C5 on `[NaN, 1, NaN, 3, NaN]`: position 1 is preserved,
position 0 takes the first known value `1`, position 4 the last known
value `3`, and the interior NaN at position 2 the linear interpolation
`2`. -/
theorem nan_helper_fill_witness :
    (([none, some 1, none, some 3, none] : List (Option ℚ)).get? 1
        = some (some 1) ∧
      (nan_helper_1d [none, some 1, none, some 3, none]).get? 1 = some 1) ∧
    ((nan_helper_1d [none, some 1, none, some 3, none]).get? 0 = some 1) ∧
    ((nan_helper_1d [none, some 1, none, some 3, none]).get? 4 = some 3) ∧
    ((nan_helper_1d [none, some 1, none, some 3, none]).get? 2
      = some (1 + (3 - 1) * ((2 : ℚ) - (1 : ℚ)) / ((3 : ℚ) - (1 : ℚ)))) :=
  ⟨⟨by decide, (nan_helper_fill [none, some 1, none, some 3, none] 1).1 1 (by decide)⟩,
    (nan_helper_fill [none, some 1, none, some 3, none] 0).2.1 (by decide) 1 1
      (by decide) (by decide),
    (nan_helper_fill [none, some 1, none, some 3, none] 4).2.2.1 (by decide) 3 3
      (by decide) (by decide),
    (nan_helper_fill [none, some 1, none, some 3, none] 2).2.2.2 (by decide) 1 3 1 3
      (by decide) (by decide)⟩

/-! ## Helper lemmas: the Duplicate Resolver loops -/

theorem getD_set_ne {α : Type} (l : List α) (n k : ℕ) (x d : α) (h : k ≠ n) :
    (l.set n x).getD k d = l.getD k d := by
  simp [List.getD_eq_getElem?_getD, List.getElem?_set_ne (Ne.symm h)]

theorem getD_set_lt {α : Type} (l : List α) (n : ℕ) (x d : α) (h : n < l.length) :
    (l.set n x).getD n d = x := by
  simp [List.getD_eq_getElem?_getD, List.getElem?_set_self h]

theorem dup_guard_iff (overlaps peak1 peak2 : List ℕ) :
    dup_guard overlaps peak1 peak2 = true ↔
      (∀ i ∈ peak1, i ∈ overlaps) ∧
        peak1.length * 4 < intersect1d_len peak1 peak2 * 5 := by
  simp [dup_guard, List.all_eq_true]

theorem potential_matches_mem (traces : List (List ℚ)) (n p : ℕ)
    (h : p ∈ potential_matches traces n) :
    p < traces.length ∧ p ≠ n ∧
      4 < (zero_overlaps (traces.getD n []) (traces.getD p [])).length := by
  simp only [potential_matches, List.mem_filter, List.mem_range,
    Bool.and_eq_true, decide_eq_true_eq] at h
  exact ⟨h.1, h.2.2, h.2.1⟩

theorem remove_pass_peak2_spec (plat_full_n : List (List ℕ)) (overlaps : List ℕ)
    (p_idx : ℕ) (peak1 : List ℕ) :
    ∀ (peak2s dn pln dn' pln' : List (List ℕ)),
      remove_pass_peak2 plat_full_n overlaps p_idx peak1 peak2s (dn, pln)
        = .ok (dn', pln') →
      dn'.Sublist dn ∧ pln'.Sublist pln ∧
      ∀ z ∈ dn, z ∉ dn' → z = peak1 ∧ peak1 ≠ [] ∧
        ∃ peak2 ∈ peak2s, peak2 ≠ [] ∧ dup_guard overlaps peak1 peak2 = true := by
  intro peak2s
  induction peak2s with
  | nil =>
    intro dn pln dn' pln' h
    simp only [remove_pass_peak2, Except.ok.injEq, Prod.mk.injEq] at h
    obtain ⟨h1, h2⟩ := h
    subst h1
    subst h2
    exact ⟨List.Sublist.refl _, List.Sublist.refl _,
      fun z hz hz' => absurd hz hz'⟩
  | cons peak2 rest ih =>
    intro dn pln dn' pln' h
    simp only [remove_pass_peak2] at h
    by_cases h0 : peak1.length = 0 ∨ peak2.length = 0
    · rw [if_pos h0] at h
      obtain ⟨s1, s2, hmem⟩ := ih dn pln dn' pln' h
      refine ⟨s1, s2, ?_⟩
      intro z hz hz'
      obtain ⟨hzp, hne, p2, hp2, hp2ne, hgd⟩ := hmem z hz hz'
      exact ⟨hzp, hne, p2, List.mem_cons_of_mem _ hp2, hp2ne, hgd⟩
    · rw [if_neg h0] at h
      by_cases hg : dup_guard overlaps peak1 peak2 = true
      · rw [if_pos hg] at h
        cases hr : peak_remover dn peak1 with
        | error e => rw [hr] at h; exact absurd h (by simp)
        | ok dn1 =>
          rw [hr] at h
          dsimp only at h
          cases hp : plat_full_n.get? p_idx with
          | none => rw [hp] at h; exact absurd h (by simp)
          | some plat =>
            rw [hp] at h
            dsimp only at h
            cases hq : peak_remover pln plat with
            | error e => rw [hq] at h; exact absurd h (by simp)
            | ok pln1 =>
              rw [hq] at h
              dsimp only at h
              obtain ⟨s1, s2, hmem⟩ := ih dn1 pln1 dn' pln' h
              refine ⟨s1.trans (peak_remover_sublist dn peak1 dn1 hr),
                s2.trans (peak_remover_sublist pln plat pln1 hq), ?_⟩
              intro z hz hz'
              push_neg at h0
              by_cases hz1 : z ∈ dn1
              · obtain ⟨hzp, hne, p2, hp2, hp2ne, hgd⟩ := hmem z hz1 hz'
                exact ⟨hzp, hne, p2, List.mem_cons_of_mem _ hp2, hp2ne, hgd⟩
              · have hzpeak := peak_remover_mem_diff dn peak1 dn1 hr z hz hz1
                refine ⟨hzpeak, fun hh => h0.1 (by simp [hh]), peak2,
                  List.mem_cons_self _ _, fun hh => h0.2 (by simp [hh]), hg⟩
      · rw [if_neg hg] at h
        obtain ⟨s1, s2, hmem⟩ := ih dn pln dn' pln' h
        refine ⟨s1, s2, ?_⟩
        intro z hz hz'
        obtain ⟨hzp, hne, p2, hp2, hp2ne, hgd⟩ := hmem z hz hz'
        exact ⟨hzp, hne, p2, List.mem_cons_of_mem _ hp2, hp2ne, hgd⟩

theorem remove_pass_peak1_spec (plat_full_n : List (List ℕ)) (overlaps : List ℕ)
    (peaksP : List (List ℕ)) :
    ∀ (copy : List (List ℕ)) (k : ℕ) (dn pln dn' pln' : List (List ℕ)),
      remove_pass_peak1 plat_full_n overlaps peaksP k copy (dn, pln)
        = .ok (dn', pln') →
      dn'.Sublist dn ∧ pln'.Sublist pln ∧
      ∀ z ∈ dn, z ∉ dn' → z ≠ [] ∧ (∀ i ∈ z, i ∈ overlaps) ∧
        ∃ peak2 ∈ peaksP, peak2 ≠ [] ∧
          z.length * 4 < intersect1d_len z peak2 * 5 := by
  intro copy
  induction copy with
  | nil =>
    intro k dn pln dn' pln' h
    simp only [remove_pass_peak1, Except.ok.injEq, Prod.mk.injEq] at h
    obtain ⟨h1, h2⟩ := h
    subst h1
    subst h2
    exact ⟨List.Sublist.refl _, List.Sublist.refl _, fun z hz hz' => absurd hz hz'⟩
  | cons peak1 copyRest ih =>
    intro k dn pln dn' pln' h
    simp only [remove_pass_peak1] at h
    cases hs : remove_pass_peak2 plat_full_n overlaps k peak1 peaksP (dn, pln) with
    | error e => rw [hs] at h; exact absurd h (by simp)
    | ok st1 =>
      rw [hs] at h
      obtain ⟨dn1, pln1⟩ := st1
      obtain ⟨s1, s2, hmem1⟩ :=
        remove_pass_peak2_spec plat_full_n overlaps k peak1 peaksP dn pln dn1 pln1 hs
      obtain ⟨t1, t2, hmem2⟩ := ih (k + 1) dn1 pln1 dn' pln' h
      refine ⟨t1.trans s1, t2.trans s2, ?_⟩
      intro z hz hz'
      by_cases hz1 : z ∈ dn1
      · exact hmem2 z hz1 hz'
      · obtain ⟨hzp, hne, p2, hp2, hp2ne, hgd⟩ := hmem1 z hz hz1
        subst hzp
        have hgi := (dup_guard_iff overlaps z p2).mp hgd
        exact ⟨hne, hgi.1, p2, hp2, hp2ne, hgi.2⟩

theorem process_match_spec (traces : List (List ℚ))
    (plat_full : List (List (List ℕ))) (n p : ℕ)
    (dp dpl dp' dpl' : List (List (List ℕ)))
    (h : process_match traces plat_full n p dp dpl = .ok (dp', dpl')) :
    (∀ k, k ≠ n → dp'.getD k [] = dp.getD k [] ∧ dpl'.getD k [] = dpl.getD k []) ∧
    (dp'.getD n []).Sublist (dp.getD n []) ∧
    (dpl'.getD n []).Sublist (dpl.getD n []) ∧
    ∀ z ∈ dp.getD n [], z ∉ dp'.getD n [] → z ≠ [] ∧
      (∀ i ∈ z, i ∈ zero_overlaps (traces.getD n []) (traces.getD p [])) ∧
      ∃ peak2 ∈ dp.getD p [], peak2 ≠ [] ∧
        z.length * 4 < intersect1d_len z peak2 * 5 := by
  simp only [process_match] at h
  cases hr : remove_pass_peak1 (plat_full.getD n [])
      (zero_overlaps (traces.getD n []) (traces.getD p [])) (dp.getD p []) 0
      (dp.getD n []) (dp.getD n [], dpl.getD n []) with
  | error e => rw [hr] at h; exact absurd h (by simp)
  | ok st1 =>
    rw [hr] at h
    obtain ⟨dn1, pln1⟩ := st1
    simp only [Except.ok.injEq, Prod.mk.injEq] at h
    obtain ⟨h1, h2⟩ := h
    subst h1
    subst h2
    obtain ⟨s1, s2, hmem⟩ :=
      remove_pass_peak1_spec (plat_full.getD n [])
        (zero_overlaps (traces.getD n []) (traces.getD p [])) (dp.getD p [])
        (dp.getD n []) 0 (dp.getD n []) (dpl.getD n []) dn1 pln1 hr
    refine ⟨fun k hk => ⟨getD_set_ne dp n k dn1 [] hk, getD_set_ne dpl n k pln1 [] hk⟩,
      ?_, ?_, ?_⟩
    · by_cases hlen : n < dp.length
      · rw [getD_set_lt dp n dn1 [] hlen]
        exact s1
      · rw [List.set_eq_of_length_le (by omega)]
    · by_cases hlen : n < dpl.length
      · rw [getD_set_lt dpl n pln1 [] hlen]
        exact s2
      · rw [List.set_eq_of_length_le (by omega)]
    · intro z hz hz'
      by_cases hlen : n < dp.length
      · rw [getD_set_lt dp n dn1 [] hlen] at hz'
        exact hmem z hz hz'
      · rw [List.set_eq_of_length_le (by omega)] at hz'
        exact absurd hz hz'

theorem process_row_spec (traces : List (List ℚ))
    (plat_full : List (List (List ℕ))) (n : ℕ) :
    ∀ (ms : List ℕ) (dp dpl dp' dpl' : List (List (List ℕ))),
      (∀ p ∈ ms, p ≠ n) →
      process_row traces plat_full n ms (dp, dpl) = .ok (dp', dpl') →
      (∀ k, k ≠ n → dp'.getD k [] = dp.getD k [] ∧ dpl'.getD k [] = dpl.getD k []) ∧
      (dp'.getD n []).Sublist (dp.getD n []) ∧
      (dpl'.getD n []).Sublist (dpl.getD n []) ∧
      ∀ z ∈ dp.getD n [], z ∉ dp'.getD n [] →
        ∃ p ∈ ms, z ≠ [] ∧
          (∀ i ∈ z, i ∈ zero_overlaps (traces.getD n []) (traces.getD p [])) ∧
          ∃ peak2 ∈ dp.getD p [], peak2 ≠ [] ∧
            z.length * 4 < intersect1d_len z peak2 * 5 := by
  intro ms
  induction ms with
  | nil =>
    intro dp dpl dp' dpl' _ h
    simp only [process_row, Except.ok.injEq, Prod.mk.injEq] at h
    obtain ⟨h1, h2⟩ := h
    subst h1
    subst h2
    exact ⟨fun k _ => ⟨rfl, rfl⟩, List.Sublist.refl _, List.Sublist.refl _,
      fun z hz hz' => absurd hz hz'⟩
  | cons p ps ih =>
    intro dp dpl dp' dpl' hms h
    simp only [process_row] at h
    cases hstep : process_match traces plat_full n p dp dpl with
    | error e => rw [hstep] at h; exact absurd h (by simp)
    | ok st1 =>
      rw [hstep] at h
      obtain ⟨dp1, dpl1⟩ := st1
      obtain ⟨frame1, sub1, sub1', hrem1⟩ :=
        process_match_spec traces plat_full n p dp dpl dp1 dpl1 hstep
      obtain ⟨frame2, sub2, sub2', hrem2⟩ :=
        ih dp1 dpl1 dp' dpl' (fun q hq => hms q (List.mem_cons_of_mem _ hq)) h
      refine ⟨?_, ?_, ?_, ?_⟩
      · intro k hk
        exact ⟨(frame2 k hk).1.trans (frame1 k hk).1,
          (frame2 k hk).2.trans (frame1 k hk).2⟩
      · exact sub2.trans sub1
      · exact sub2'.trans sub1'
      · intro z hz hz'
        by_cases hz1 : z ∈ dp1.getD n []
        · obtain ⟨q, hq, hzne, hover, y, hy, hyne, hlen⟩ := hrem2 z hz1 hz'
          have hqn : q ≠ n := hms q (List.mem_cons_of_mem _ hq)
          rw [(frame1 q hqn).1] at hy
          exact ⟨q, List.mem_cons_of_mem _ hq, hzne, hover, y, hy, hyne, hlen⟩
        · obtain ⟨hzne, hover, y, hy, hyne, hlen⟩ := hrem1 z hz hz1
          exact ⟨p, List.mem_cons_self _ _, hzne, hover, y, hy, hyne, hlen⟩

theorem remove_rows_spec (traces : List (List ℚ))
    (plat_full : List (List (List ℕ))) :
    ∀ (ns : List ℕ) (dp dpl dp' dpl' : List (List (List ℕ))),
      remove_rows traces plat_full ns (dp, dpl) = .ok (dp', dpl') →
      (∀ k, (dp'.getD k []).Sublist (dp.getD k []) ∧
        (dpl'.getD k []).Sublist (dpl.getD k [])) ∧
      ∀ k, ∀ z ∈ dp.getD k [], z ∉ dp'.getD k [] →
        ∃ m ∈ List.range traces.length, m ≠ k ∧
          4 < (zero_overlaps (traces.getD k []) (traces.getD m [])).length ∧
          z ≠ [] ∧
          (∀ i ∈ z, i ∈ zero_overlaps (traces.getD k []) (traces.getD m [])) ∧
          ∃ y ∈ dp.getD m [], y ≠ [] ∧
            z.length * 4 < intersect1d_len z y * 5 := by
  intro ns
  induction ns with
  | nil =>
    intro dp dpl dp' dpl' h
    simp only [remove_rows, Except.ok.injEq, Prod.mk.injEq] at h
    obtain ⟨h1, h2⟩ := h
    subst h1
    subst h2
    exact ⟨fun k => ⟨List.Sublist.refl _, List.Sublist.refl _⟩,
      fun k z hz hz' => absurd hz hz'⟩
  | cons n rest ih =>
    intro dp dpl dp' dpl' h
    simp only [remove_rows] at h
    cases hstep : process_row traces plat_full n (potential_matches traces n)
        (dp, dpl) with
    | error e => rw [hstep] at h; exact absurd h (by simp)
    | ok st1 =>
      rw [hstep] at h
      obtain ⟨dp1, dpl1⟩ := st1
      have hms : ∀ p ∈ potential_matches traces n, p ≠ n :=
        fun p hp => (potential_matches_mem traces n p hp).2.1
      obtain ⟨frame1, sub1, sub1', hrem1⟩ :=
        process_row_spec traces plat_full n (potential_matches traces n)
          dp dpl dp1 dpl1 hms hstep
      obtain ⟨subs2, hrem2⟩ := ih dp1 dpl1 dp' dpl' h
      have hstepsub : ∀ k, (dp1.getD k []).Sublist (dp.getD k []) ∧
          (dpl1.getD k []).Sublist (dpl.getD k []) := by
        intro k
        by_cases hk : k = n
        · subst hk
          exact ⟨sub1, sub1'⟩
        · exact ⟨(frame1 k hk).1 ▸ List.Sublist.refl _,
            (frame1 k hk).2 ▸ List.Sublist.refl _⟩
      refine ⟨fun k => ⟨(subs2 k).1.trans (hstepsub k).1,
        (subs2 k).2.trans (hstepsub k).2⟩, ?_⟩
      intro k z hz hz'
      by_cases hz1 : z ∈ dp1.getD k []
      · obtain ⟨m, hm, hmk, hcount, hzne, hover, y, hy, hyne, hlen⟩ :=
          hrem2 k z hz1 hz'
        exact ⟨m, hm, hmk, hcount, hzne, hover, y,
          (hstepsub m).1.subset hy, hyne, hlen⟩
      · have hk : k = n := by
          by_contra hk
          rw [(frame1 k hk).1] at hz1
          exact hz1 hz
        subst hk
        obtain ⟨p, hp, hzne, hover, y, hy, hyne, hlen⟩ := hrem1 z hz hz1
        obtain ⟨hplen, hpk, hcount⟩ := potential_matches_mem traces k p hp
        exact ⟨p, List.mem_range.mpr hplen, hpk, hcount, hzne, hover,
          y, hy, hyne, hlen⟩

/-! ## Claim C4 -/

/-- Claim C4: the duplicate-removal pass run during `peak_site`
construction leaves `traces`, `raw_traces`, the label arrays and the full
peak/plateau index lists exactly as derived from the inputs, and only
shrinks the dedup lists (each deduplicated row list is a sublist of the
full one); hence the deduplicated peak count of every trace is at most its
full peak count. -/
theorem dedup_frame_monotone (traces : List (List ℚ)) (plab slab : List (List ℕ))
    (s : PeakSite) (h : peak_site_init traces plab slab = .ok s) :
    s.traces = traces ∧ s.raw_traces = traces ∧ s.peak_labels = plab ∧
    s.seed_labels = slab ∧ s.peak_idxs = labels_to_peak_idxs plab ∧
    s.plateau_idxs = labels_to_peak_idxs slab ∧
    (∀ n, (s.dedup_peak_idxs.getD n []).Sublist (s.peak_idxs.getD n []) ∧
      (s.dedup_plateau_idxs.getD n []).Sublist (s.plateau_idxs.getD n [])) ∧
    (∀ n, (s.dedup_peak_idxs.getD n []).length ≤ (s.peak_idxs.getD n []).length) := by
  simp only [peak_site_init, remove_duplicate_peaks] at h
  cases hrm : remove_rows traces (labels_to_peak_idxs slab)
      (List.range traces.length)
      (labels_to_peak_idxs plab, labels_to_peak_idxs slab) with
  | error e => rw [hrm] at h; exact absurd h (by simp)
  | ok st =>
    rw [hrm] at h
    obtain ⟨dpk, dpl⟩ := st
    dsimp only at h
    simp only [Except.ok.injEq] at h
    subst h
    obtain ⟨hsub, _⟩ :=
      remove_rows_spec traces (labels_to_peak_idxs slab)
        (List.range traces.length) (labels_to_peak_idxs plab)
        (labels_to_peak_idxs slab) dpk dpl hrm
    exact ⟨rfl, rfl, rfl, rfl, rfl, rfl,
      fun n => ⟨(hsub n).1, (hsub n).2⟩, fun n => ((hsub n).1).length_le⟩

/-- Witness for C4 at the two-identical-row site: construction succeeds,
the stored traces and full lists are the inputs' derived values, and the
dedup peak counts (0 and 1) are at most the full counts (1 and 1). -/
theorem dedup_frame_monotone_witness :
    peak_site_init exT exP exS = .ok exSite ∧ exSite.traces = exT ∧
    (∀ n, (exSite.dedup_peak_idxs.getD n []).length
      ≤ (exSite.peak_idxs.getD n []).length) :=
  ⟨by with_unfolding_all decide,
    (dedup_frame_monotone exT exP exS exSite (by with_unfolding_all decide)).1,
    (dedup_frame_monotone exT exP exS exSite
      (by with_unfolding_all decide)).2.2.2.2.2.2.2⟩

/-! ## Claim C1 -/

/-- Counterexample for C1 as stated: the claim's "exactly when" fails.  In
the two-identical-row site, row 1's peak `[1,2,3]` satisfies the claimed
removal condition (row 0 matches with 6 > 4 zero-difference indices, the
peak lies in the overlap set, and it intersects row 0's full-list peak in
more than 0.8 of its length), yet it survives in row 1's deduplicated
list: row 0's matching peak was itself already removed when row 1 was
processed. -/
theorem remove_duplicate_not_complete :
    peak_site_init exT exP exS = .ok exSite ∧
    removal_cond exT exSite.peak_idxs 1 [1, 2, 3] ∧
    [1, 2, 3] ∈ exSite.dedup_peak_idxs.getD 1 [] := by
  refine ⟨?_, ?_, ?_⟩ <;> with_unfolding_all decide

/-- Claim C1, amended: the stated condition is necessary but not
sufficient.  Whenever construction succeeds and a peak of row `n`'s full
list is missing from its deduplicated list, there is another row `m` with
more than 4 zero-difference indices against row `n`, every index of the
peak lies in that zero-difference overlap set, and the peak intersects
some (nonempty) peak of row `m`'s full list in strictly more than 0.8 of
its own length; the removed peak is nonempty (empty comparisons are
skipped) and only row `n`'s dedup lists are modified.  The converse fails
when row `m`'s matching peak was already removed from `m`'s deduplicated
list before row `n` was processed (see the counterexample). -/
theorem remove_duplicate_sound (traces : List (List ℚ))
    (plab slab : List (List ℕ)) (s : PeakSite)
    (h : peak_site_init traces plab slab = .ok s) (n : ℕ) (x : List ℕ)
    (hx : x ∈ s.peak_idxs.getD n []) (hnot : x ∉ s.dedup_peak_idxs.getD n []) :
    removal_cond traces s.peak_idxs n x := by
  simp only [peak_site_init, remove_duplicate_peaks] at h
  cases hrm : remove_rows traces (labels_to_peak_idxs slab)
      (List.range traces.length)
      (labels_to_peak_idxs plab, labels_to_peak_idxs slab) with
  | error e => rw [hrm] at h; exact absurd h (by simp)
  | ok st =>
    rw [hrm] at h
    obtain ⟨dpk, dpl⟩ := st
    dsimp only at h
    simp only [Except.ok.injEq] at h
    subst h
    obtain ⟨_, hrem⟩ :=
      remove_rows_spec traces (labels_to_peak_idxs slab)
        (List.range traces.length) (labels_to_peak_idxs plab)
        (labels_to_peak_idxs slab) dpk dpl hrm
    obtain ⟨m, hm, hmn, hcount, hxne, hover, y, hy, hyne, hlen⟩ :=
      hrem n x hx hnot
    exact ⟨hxne, m, hm, hmn, hcount, hover, y, hy, hyne, hlen⟩

/-- Witness for C1's amended theorem: row 0's peak `[1,2,3]` of the
two-identical-row site is removed, and the removal condition indeed holds
for it. -/
theorem remove_duplicate_sound_witness :
    peak_site_init exT exP exS = .ok exSite ∧
    removal_cond exT exSite.peak_idxs 0 [1, 2, 3] :=
  ⟨by with_unfolding_all decide,
    remove_duplicate_sound exT exP exS exSite (by with_unfolding_all decide) 0
      [1, 2, 3] (by with_unfolding_all decide) (by with_unfolding_all decide)⟩

end Covertrace
